import Mathlib

/-!
Verification development for the mash image service (Go sources).

The definitions below are shallow embeddings of the Go sources:

* `src/service/imager/filecache.go` — the LRU disk cache (`FileCache`),
* `src/unnamed/part_005` — an earlier revision of `NewFileCache`,
* `src/unnamed/part_015` — the `pipeline` package (`Parse`, `Params.Unpack`,
  `Resize.cropBounds`, `Resize.resizeFactor`, `Resize.Process`),
* `src/service/ico/pipeline/pipeline.go` — pipeline construction (`New`),
* `src/service/imager/pipeline.go` — the legacy engine (`Pipeline.Process`
  resize-factor and crop switch, `GetFileType`).

Conventions: Go `int64` values are modelled as `Int` (no overflow occurs in the
ranges the code handles); Go `float64` arithmetic is modelled exactly over `ℚ`;
Go maps are modelled as association lists with `List.lookup`; filesystem and
lock effects are made explicit (disk contents are part of the state, fallible
syscalls take a Boolean outcome parameter).
-/

namespace Mash

/-! ## FileCache (src/service/imager/filecache.go)

The cache state carries the fields of the Go `FileCache` struct: `quota`,
`usage`, the recency list `order` (head = front = most recent, last = back =
least recent) and the reverse lookup table `cache` (here `index`), plus the
on-disk files, modelled as an association list from relative path to bytes.
The payload of a list element (Go `file` struct) is `FRec`. -/

/-- The Go `file` record stored in each list element: `{size, key}`. -/
structure FRec where
  size : Int
  key  : String
deriving DecidableEq, Repr

/-- A byte slice, modelled as a list of byte values. -/
abbrev Bytes := List Nat

/-- The `interface{}` value passed to `FileCache.Add`: either a byte slice or
some other (rejected) value. -/
inductive CacheValue where
  | bytes (data : Bytes)
  | other
deriving DecidableEq, Repr

/-- State of a `FileCache`, together with the disk contents under its root. -/
structure CacheSt where
  quota : Int
  usage : Int
  /-- The doubly-linked recency list; head is the front (MRU), last is the back (LRU). -/
  order : List FRec
  /-- The reverse lookup table `cache : map[string]*list.Element`, as key ↦ element payload. -/
  index : List (String × FRec)
  /-- Files on disk under the cache root: relative path ↦ contents. -/
  disk  : List (String × Bytes)
deriving DecidableEq, Repr

/-- Sum of `entry.size` over all entries currently in the index. -/
def sumIndex (index : List (String × FRec)) : Int :=
  (index.map (fun kv => kv.2.size)).sum

/-- Remove the binding for `k` from an association list (Go `delete(m, k)`). -/
def mapDelete {β : Type} (m : List (String × β)) (k : String) : List (String × β) :=
  m.filter (fun kv => kv.1 ≠ k)

/-- Overwrite-or-insert a binding in an association list (Go `m[k] = v`). -/
def mapInsert {β : Type} (m : List (String × β)) (k : String) (v : β) : List (String × β) :=
  (k, v) :: mapDelete m k

/-- Go `list.MoveToFront(el)`: unlink `el` and reinsert it at the front. -/
def moveToFront (order : List FRec) (el : FRec) : List FRec :=
  el :: order.erase el

/-- Go `FileCache.removeElement`: delete the file on disk, subtract the size of the element from `usage`, drop the key from the lookup table and unlink the element. -/
def removeElement (s : CacheSt) (el : FRec) : CacheSt :=
  { s with
    disk  := mapDelete s.disk el.key
    usage := s.usage - el.size
    index := mapDelete s.index el.key
    order := s.order.erase el }

/-- Go `FileCache.RemoveOldest`: remove the element at the back of the list, if any. -/
def RemoveOldest (s : CacheSt) : CacheSt :=
  match s.order.getLast? with
  | none => s
  | some el => removeElement s el

/-- Go `FileCache.Remove`: remove the element stored under `key`, if indexed. -/
def Remove (s : CacheSt) (key : String) : CacheSt :=
  match s.index.lookup key with
  | none => s
  | some el => removeElement s el

/-- The eviction loop in `FileCache.Add`:
`for f.quota > 0 && f.usage+size > f.quota { f.RemoveOldest() }`.
Each iteration with a non-empty list removes one element, so `fuel := order.length`
runs the loop to completion whenever the Go loop terminates (the Go loop spins
forever if the list empties while the condition still holds; that situation is
unreachable, see `WF_add`). -/
def evict : Nat → Int → CacheSt → CacheSt
  | 0, _, s => s
  | fuel + 1, size, s =>
    if s.quota > 0 ∧ s.usage + size > s.quota then
      evict fuel size (RemoveOldest s)
    else
      s

/-- Go `FileCache.Add`. Here `mkdirOk` and `writeOk` are the outcomes of the two
fallible syscalls (`os.MkdirAll`, `ioutil.WriteFile`); on a failed write the
fresh element is unlinked again and the data is not recorded. -/
def Add (s : CacheSt) (key : String) (value : CacheValue) (mkdirOk writeOk : Bool) : CacheSt :=
  match value with
  | .other => s
  | .bytes data =>
    -- Do not store data whose size is equal to or larger than the quota size.
    if s.quota > 0 ∧ (data.length : Int) ≥ s.quota then s
    else
      match s.index.lookup key with
      | some el => { s with order := moveToFront s.order el }
      | none =>
        if mkdirOk = false then s
        else
          let el : FRec := ⟨(data.length : Int), key⟩
          let s1 : CacheSt := { s with order := el :: s.order }
          let s2 := evict s1.order.length el.size s1
          if writeOk = false then { s2 with order := s2.order.erase el }
          else
            { s2 with
              usage := s2.usage + el.size
              index := mapInsert s2.index key el
              disk  := mapInsert s2.disk key data }

/-- Go `FileCache.Get`: probe the lookup table; on a hit read the file from disk
and promote the element; otherwise (or if the read fails) return nil. The
current revision has no warm-start path: an unindexed key returns nil even when
the file exists on disk. -/
def Get (s : CacheSt) (key : String) : CacheSt × Option Bytes :=
  match s.index.lookup key with
  | some el =>
    match s.disk.lookup key with
    | some buf => ({ s with order := moveToFront s.order el }, some buf)
    | none => (s, none)
  | none => (s, none)

/-! ### Cache construction

`NewFileCache` exists in two revisions in the repository. The current one
(`src/service/imager/filecache.go`, lines 37-66) consults the process-wide
registry and, for a fresh root, calls `os.RemoveAll(name)` unconditionally
before recreating the directory. The earlier revision (`src/unnamed/part_005`,
lines 28-51) has no registry and removes an existing directory only when a
nonzero size limit was requested. We model the existence of a directory tree at the root
as a Boolean and report whether a pre-existing tree was deleted. -/

/-- Go `NewFileCache` from `src/service/imager/filecache.go`. The registry maps
root paths to the quota of the already-initialized cache. Returns the updated
registry, the effective quota of the cache that is returned, and whether a
pre-existing directory tree at the root was deleted. -/
def NewFileCacheGo (registry : List (String × Int)) (name : String) (quota : Int)
    (dirExists : Bool) : List (String × Int) × Int × Bool :=
  match registry.lookup name with
  | some q =>
    -- Update quota size for cache, if the new quota size is greater than the existing one.
    let q' := if quota = 0 ∨ (q > 0 ∧ q < quota) then quota else q
    (mapInsert registry name q', q', false)
  | none =>
    -- Remove directory structure first, if any. (No quota check in this revision.)
    (mapInsert registry name quota, quota, dirExists)

/-- Go `NewFileCache` from `src/unnamed/part_005`: returns whether the
pre-existing directory tree at the root was deleted
(`if fi != nil && fi.IsDir() && size > 0 { os.RemoveAll(path) }`). -/
def NewFileCachePart005 (dirExists : Bool) (quota : Int) : Bool :=
  dirExists && decide (quota > 0)

/-- Well-formedness of a cache state: the claimed accounting invariant
(`usage = Σ entry.size` over the index) together with the structural facts
that make it inductive: the index and the recency list hold exactly the same
entries, keys are unique, and each index binding records its own key. -/
def WF (s : CacheSt) : Prop :=
  s.usage = sumIndex s.index
    ∧ (s.order.map FRec.key).Nodup
    ∧ (s.index.map Prod.fst).Nodup
    ∧ (∀ e ∈ s.order, s.index.lookup e.key = some e)
    ∧ (∀ kv ∈ s.index, kv.2 ∈ s.order ∧ kv.2.key = kv.1)

instance (s : CacheSt) : Decidable (WF s) := by
  unfold WF; infer_instance

/-- Intermediate well-formedness holding inside `Add` while the freshly pushed
element `el` sits at the front of the list but is not yet indexed: the rest of
the list and the index agree, and the accounting equation already holds. -/
def MidWF (el : FRec) (rest : List FRec) (s : CacheSt) : Prop :=
  s.order = el :: rest
    ∧ s.usage = sumIndex s.index
    ∧ ((el :: rest).map FRec.key).Nodup
    ∧ (s.index.map Prod.fst).Nodup
    ∧ (∀ e ∈ rest, s.index.lookup e.key = some e)
    ∧ (∀ kv ∈ s.index, kv.2 ∈ rest ∧ kv.2.key = kv.1)

/-! ## String primitives

All separators used by the Go code (`,`, `=`, `:`, `|`) are single
characters, so the Go `strings.Split` is implemented here by structural
recursion over the character list (the position-based library `splitOn`
does not reduce inside the kernel). -/

/-- Split a character list on every occurrence of `c`
(the semantics of Go `strings.Split` for a one-character separator:
the empty input yields `[[]]`, i.e. one empty field). -/
def splitList (c : Char) : List Char → List (List Char)
  | [] => [[]]
  | x :: xs =>
    match splitList c xs, decide (x = c) with
    | r, true => [] :: r
    | [], false => [[x]]
    | y :: ys, false => (x :: y) :: ys

/-- Go `strings.Split(s, sep)` for the single-character separator `sep`. -/
def splitChar (s : String) (c : Char) : List String :=
  (splitList c s.data).map String.mk

/-- Go `strings.SplitN(s, "=", 2)`: split on the first `=` only. -/
def splitN2Eq (s : String) : List String :=
  let pre := s.data.takeWhile (fun ch => ch ≠ '=')
  match s.data.dropWhile (fun ch => ch ≠ '=') with
  | [] => [String.mk pre]
  | _ :: rest => [String.mk pre, String.mk rest]

/-- Whether `n` occurs as a contiguous run inside `h`
(Go `regexp` matching of a literal pattern is unanchored). -/
def listContains (h n : List Char) : Bool :=
  n.isPrefixOf h ||
    match h with
    | [] => false
    | _ :: t => listContains t n

/-- Go `strconv.ParseInt(s, 10, 64)` on the digit strings the service
handles: an optional sign followed by at least one decimal digit (the int64
overflow rejection is not modelled; no claim depends on 19-digit inputs). -/
def parseIntStr (s : String) : Option Int :=
  let digitsVal : List Char → Option Nat := fun l =>
    if l.isEmpty ∨ l.any (fun c => ¬('0' ≤ c ∧ c ≤ '9')) then none
    else some (l.foldl (fun acc c => acc * 10 + (c.toNat - '0'.toNat)) 0)
  match s.data with
  | '-' :: rest => (digitsVal rest).map (fun n => -(n : Int))
  | '+' :: rest => (digitsVal rest).map (fun n => (n : Int))
  | l => (digitsVal l).map (fun n => (n : Int))

/-- Go `strconv.Atoi` with the error ignored (`i, _ = strconv.Atoi(idx)`): a
failed parse leaves the index at zero. -/
def parseIndexTag (s : String) : Nat :=
  match parseIntStr s with
  | some v => v.toNat
  | none => 0

/-! ## Parameter grammar (src/unnamed/part_015, `pipeline` package)

`Params` is a Go map from parameter name to raw value, modelled as an
association list consulted through `List.lookup` (`Parse` inserts with
overwrite semantics, so keys are unique). -/

/-- Map `Params`: parameter name ↦ raw string value. -/
abbrev Params := List (String × String)

/-- One step of the loop in `Parse` (lines 330-338): split the field on `=`,
reject fields with fewer than two components (`if len(o) < 2`), store
`p[o[0]] = o[1]` (components beyond the second are dropped). -/
def parseFields (fields : List String) (acc : Params) : Except String Params :=
  match fields with
  | [] => .ok acc
  | r :: rest =>
    let o := splitChar r '='
    if o.length < 2 then .error ("unable to parse malformed parameter " ++ r)
    else parseFields rest (mapInsert acc (o.getD 0 "") (o.getD 1 ""))

/-- Go `Parse` (lines 322-341): reject the empty string, split on `,` and fold the
fields into the map. -/
def Parse (params : String) : Except String Params :=
  if params = "" then .error "unable to parse empty parameter list"
  else parseFields (splitChar params ',') []

/-- Go `regexp.MatchString(pattern, s)` for the literal-alternation patterns
used in this schema (`crop`, `top|bottom|left|right|point`): the match is
unanchored, so it succeeds exactly when some alternative occurs as a substring
of `s`. -/
def regexMatch (pattern s : String) : Bool :=
  (splitChar pattern '|').any (fun lit => listContains s.data lit.data)

/-- Go `Params.getFieldValue` (lines 270-317): resolve the raw value
of one schema field from the params map, given the tags of that field (`key`, `default`, `valid`,
`index`; an empty string means the tag is absent). An extended key such as
`fit=crop` names parameter `fit` and only applies when its value starts with
`crop`; the prefix and any following colons are stripped. A missing parameter
falls back to the default (silently skipped when there is none). Present,
non-empty values are split on `:`, indexed, and validated. -/
def getFieldValue (p : Params) (tagKey tagDefault tagValid tagIndex : String) :
    Except String String :=
  let key := splitN2Eq tagKey
  let k0 := key.headD ""
  match p.lookup k0 with
  | none =>
    if tagDefault = "" then .ok "" else .ok tagDefault
  | some v0 =>
    let stripped : Option String :=
      if key.length = 2 then
        let pre := key.getD 1 ""
        if pre.data.isPrefixOf v0.data then
          some (String.mk ((v0.data.drop pre.data.length).dropWhile (fun c => c = ':')))
        else
          none
      else some v0
    match stripped with
    | none => .ok ""  -- extended-key prefix mismatch: the field is skipped without error
    | some val =>
      if val = "" then .ok tagDefault
      else
        let vf := splitChar val ':'
        let i := parseIndexTag tagIndex
        if vf.length ≤ i then .error (k0 ++ ": non-existing index")
        else
          let vi := vf.getD i ""
          if tagValid ≠ "" ∧ regexMatch tagValid vi = false then
            .error (k0 ++ ": value does not match")
          else .ok vi

/-- Go `populateField` for an integer field (lines 243-251): an empty raw value
leaves the field at its current (zero) value; otherwise the value must parse as
a base-10 integer. -/
def populateInt (cur : Int) (val : String) : Except String Int :=
  if val = "" then .ok cur
  else
    match parseIntStr val with
    | some v => .ok v
    | none => .error ("unable to convert to integer: " ++ val)

/-- The flattened `Resize` option struct (lines 22-35): `Width`, `Height`,
`Fit.Kind`, `Fit.Crop.Gravity`, `Fit.Crop.Point.{X,Y}`. -/
structure Resize where
  width   : Int
  height  : Int
  fitKind : String
  gravity : String
  pointX  : Int
  pointY  : Int
deriving DecidableEq, Repr

/-- Go `Params.Unpack` specialized to the `Resize` struct: `populateStruct` walks
the schema fields in declaration order, resolving each through `getFieldValue`
and converting through `populateField`; the tags are those on the `Resize`
struct (`key:"width"`, `key:"height"`, `key:"fit" default:"clip" valid:"crop"`,
`key:"fit=crop" default:"center" valid:"top|bottom|left|right|point"`,
`key:"fit=crop:point" index:"0"` and `index:"1"`). -/
def unpackResize (p : Params) : Except String Resize := do
  let wS ← getFieldValue p "width" "" "" ""
  let w ← populateInt 0 wS
  let hS ← getFieldValue p "height" "" "" ""
  let h ← populateInt 0 hS
  let kS ← getFieldValue p "fit" "clip" "crop" ""
  let gS ← getFieldValue p "fit=crop" "center" "top|bottom|left|right|point" ""
  let xS ← getFieldValue p "fit=crop:point" "" "" "0"
  let x ← populateInt 0 xS
  let yS ← getFieldValue p "fit=crop:point" "" "" "1"
  let y ← populateInt 0 yS
  .ok ⟨w, h, kS, gS, x, y⟩

/-- Go `NewResize` (lines 166-179): unpack the params; decline (return `none`)
when neither width nor height was requested. -/
def NewResize (p : Params) : Except String (Option Resize) :=
  match unpackResize p with
  | .error e => .error e
  | .ok r => if r.width = 0 ∧ r.height = 0 then .ok none else .ok (some r)

/-- Go `pipeline.New` (src/service/ico/pipeline/pipeline.go, lines 78-105): parse
the parameter string and walk the ordered factory list (`[NewResize]`),
collecting the operations that apply. -/
def pipelineNew (params : String) : Except String (List Resize) :=
  match Parse params with
  | .error e => .error ("unable to parse parameters: " ++ e)
  | .ok prm =>
    match NewResize prm with
    | .error e => .error e
    | .ok none => .ok []
    | .ok (some r) => .ok [r]

/-! ## Resize geometry -/

/-- The short-circuit guard shared by both engines
(`src/service/imager/pipeline.go` line 219, `src/unnamed/part_015` line 43):
`(width > W || height > H) || (width == W && height == H)`. -/
def resizeShortCircuit (width height W H : Int) : Bool :=
  (width > W || height > H) || (width == W && height == H)

/-- The resize-factor computation of the legacy engine
(`src/service/imager/pipeline.go`, lines 218-247). Returns `none` when the
original image is returned unchanged (short-circuit, or no dimension
requested); otherwise the factor together with the width and height the
pipeline will use from here on (the auto axis is overwritten with
`floor(dim/factor)`). Go `float64` arithmetic is modelled exactly over `ℚ`. -/
def resizeParams (W H width height : Int) (fit : String) : Option (ℚ × Int × Int) :=
  if resizeShortCircuit width height W H then none
  else if width > 0 ∧ height > 0 then
    let xf : ℚ := (W : ℚ) / (width : ℚ)
    let yf : ℚ := (H : ℚ) / (height : ℚ)
    some (if fit = "crop" then min xf yf else max xf yf, width, height)
  else if width > 0 then
    let factor : ℚ := (W : ℚ) / (width : ℚ)
    some (factor, width, ⌊(H : ℚ) / factor⌋)
  else if height > 0 then
    let factor : ℚ := (H : ℚ) / (height : ℚ)
    some (factor, ⌊(W : ℚ) / factor⌋, height)
  else none

/-- Crop bounds as returned by `Resize.cropBounds` (x offset, y offset, crop
width, crop height). -/
structure CropBox where
  cx : Int
  cy : Int
  cw : Int
  ch : Int
deriving DecidableEq, Repr

/-- Go `Resize.cropBounds` (src/unnamed/part_015, lines 131-161), for an image of
current dimensions `W × H`. Go `int64` division truncates toward zero
(`Int.tdiv`); the `math.Min`/`math.Max` clamping in the `point` case is exact
on these magnitudes. -/
def cropBounds (r : Resize) (W H : Int) : CropBox :=
  if r.gravity = "point" then
    let x0 := r.pointX - Int.tdiv r.width 2
    let y0 := r.pointY - Int.tdiv r.height 2
    { cx := min (max 0 x0) (W - r.width)
      cy := min (max 0 y0) (H - r.height)
      cw := r.width, ch := r.height }
  else if r.gravity = "left" then
    { cx := 0, cy := Int.tdiv (H - r.height) 2, cw := r.width, ch := r.height }
  else if r.gravity = "right" then
    { cx := W - r.width, cy := Int.tdiv (H - r.height) 2, cw := r.width, ch := r.height }
  else if r.gravity = "top" then
    { cx := Int.tdiv (W - r.width) 2, cy := 0, cw := r.width, ch := r.height }
  else if r.gravity = "bottom" then
    { cx := Int.tdiv (W - r.width) 2, cy := H - r.height, cw := r.width, ch := r.height }
  else
    { cx := Int.tdiv (W - r.width) 2, cy := Int.tdiv (H - r.height) 2
      cw := r.width, ch := r.height }

/-- The crop-offset switch of the legacy engine
(`src/service/imager/pipeline.go`, lines 330-362), for `p.Crop` equal to
`crop`, focus box `focus`, original dimensions `imgW × imgH`, current
dimensions `Wc × Hc` and targets `width × height`. The `focus` case divides by
a factor built from Go *integer* division of the original by the current
dimensions; float arithmetic is modelled over `ℚ` (in Go a zero factor yields
an infinite quotient; over `ℚ` division by zero is zero — no claim below
touches that case). The `default` case covers `top` (the default crop value)
and every unrecognized name. -/
def imagerCropOffsets (crop : String) (focus : List ℚ) (imgW imgH Wc Hc width height : Int) :
    Except String (Int × Int) :=
  if crop = "focus" then
    if focus.length ≠ 4 then .error "failed to crop image: invalid format for focus box"
    else
      let b0 := focus.getD 0 0
      let b1 := focus.getD 1 0
      let b2 := focus.getD 2 0
      let b3 := focus.getD 3 0
      let factor : ℚ := max ((Int.tdiv imgW Wc : Int) : ℚ) ((Int.tdiv imgH Hc : Int) : ℚ)
      let x0 : Int := ⌊(b0 + b2 / 2) / factor⌋ - Int.tdiv width 2
      let y0 : Int := ⌊(b1 + b3 / 2) / factor⌋ - Int.tdiv height 2
      .ok (min (max 0 x0) (Wc - width), min (max 0 y0) (Hc - height))
  else if crop = "right" then .ok (0, Int.tdiv (Hc - height + 1) 2)
  else if crop = "left" then .ok (Wc - width, Int.tdiv (Hc - height + 1) 2)
  else if crop = "bottom" then .ok (Int.tdiv (Wc - width + 1) 2, 0)
  else .ok (Int.tdiv (Wc - width + 1) 2, Hc - height)

/-! ## File type detection and its caller -/

/-- A Go byte slice with its backing array made explicit: `data` holds the
`len(s)` visible bytes, `spare` the backing-array bytes between the length and
the capacity, so `cap(s) = data.length + spare.length`. A slice expression
`s[:2]` bound-checks its upper index against the **capacity**, not the length:
it panics exactly when `cap(s) < 2`, and otherwise exposes the first two
backing bytes. -/
structure GoSlice where
  data  : Bytes
  spare : Bytes
deriving DecidableEq, Repr

/-- The magic-number table (`src/service/imager/pipeline.go`, lines 408-412). -/
def fileTypes : List (String × Bytes) :=
  [("image/jpeg", [0xff, 0xd8]), ("image/png", [0x89, 0x50]), ("image/gif", [0x47, 0x49])]

/-- Go `GetFileType` (lines 414-426). The body evaluates `data[:2]` with no
guard; per Go slice-expression semantics this panics (modelled as `none`)
exactly when the capacity of `data` is below 2, and otherwise compares the
first two backing-array bytes against the magic table. Go map iteration order
is unspecified, but the three two-byte signatures are pairwise distinct, so at
most one entry matches and the fold is order-independent. -/
def GetFileType (s : GoSlice) : Option String :=
  if s.data.length + s.spare.length < 2 then none
  else
    some (fileTypes.foldl
      (fun acc ts => if (s.data ++ s.spare).take 2 = ts.2 then ts.1 else acc)
      "application/octet-stream")

/-- A buffer as produced by `ioutil.ReadFile` (local cache hits) and
`ioutil.ReadAll` (the S3 client): the visible bytes are the contents, and the
backing array is freshly allocated with capacity at least `bytes.MinRead`
(512) and zeroed, so the slice carries `max 512 (len contents)` capacity. -/
def readAllSlice (contents : Bytes) : GoSlice :=
  ⟨contents, List.replicate (512 - contents.length) 0⟩

/-- The processed-hit fast path of `Imager.Process`
(`src/service/imager/imager.go`, lines 44-48): whenever the source returns
non-nil bytes — always a `ReadFile`/`ReadAll`-backed buffer — they are passed
straight to `GetFileType` with no length check; the content type of the
response is its result. -/
def fastPathResponse (cached : Option Bytes) : Option (Option String) :=
  match cached with
  | some data => some (GetFileType (readAllSlice data))
  | none => none

/-- A concrete one-entry cache used to witness the invariant theorem. -/
def sampleCache : CacheSt :=
  ⟨100, 3, [⟨3, "a"⟩], [("a", ⟨3, "a"⟩)], [("a", [1, 2, 3])]⟩

/-! ## Association-list lemmas -/

theorem sumIndex_cons (a : String) (e : FRec) (m : List (String × FRec)) :
    sumIndex ((a, e) :: m) = e.size + sumIndex m := by
  simp [sumIndex]

theorem mapDelete_cons {β : Type} (a : String) (b : β) (m : List (String × β)) (k : String) :
    mapDelete ((a, b) :: m) k =
      if a = k then mapDelete m k else (a, b) :: mapDelete m k := by
  by_cases h : a = k <;> simp [mapDelete, h]

theorem lookup_mapDelete_ne {β : Type} (m : List (String × β)) (k k' : String) (h : k' ≠ k) :
    (mapDelete m k).lookup k' = m.lookup k' := by
  induction m with
  | nil => rfl
  | cons hd tl ih =>
    obtain ⟨a, b⟩ := hd
    by_cases ha : a = k
    · subst ha
      have : (k' == a) = false := by simp [h]
      simp [mapDelete_cons, List.lookup, this, ih]
    · by_cases hk : k' = a
      · subst hk
        simp [mapDelete_cons, ha, List.lookup]
      · have : (k' == a) = false := by simp [hk]
        simp [mapDelete_cons, ha, List.lookup, this, ih]

theorem lookup_mem {β : Type} {m : List (String × β)} {k : String} {v : β}
    (h : m.lookup k = some v) : (k, v) ∈ m := by
  induction m with
  | nil => simp [List.lookup] at h
  | cons hd tl ih =>
    obtain ⟨a, b⟩ := hd
    by_cases hk : k = a
    · subst hk
      simp [List.lookup] at h
      simp [h]
    · have hb : (k == a) = false := by simp [hk]
      rw [List.lookup, hb] at h
      exact List.mem_cons_of_mem _ (ih h)

theorem lookup_none_not_mem {β : Type} {m : List (String × β)} {k : String}
    (h : m.lookup k = none) : k ∉ m.map Prod.fst := by
  induction m with
  | nil => simp
  | cons hd tl ih =>
    obtain ⟨a, b⟩ := hd
    by_cases hk : k = a
    · subst hk
      simp [List.lookup] at h
    · have hb : (k == a) = false := by simp [hk]
      rw [List.lookup, hb] at h
      simpa [hk] using ih h

theorem mapDelete_of_not_mem {β : Type} {m : List (String × β)} {k : String}
    (h : k ∉ m.map Prod.fst) : mapDelete m k = m := by
  induction m with
  | nil => rfl
  | cons hd tl ih =>
    obtain ⟨a, b⟩ := hd
    simp only [List.map_cons, List.mem_cons] at h
    push_neg at h
    rw [mapDelete_cons, if_neg (fun hak => h.1 hak.symm), ih h.2]

theorem sumIndex_mapDelete {m : List (String × FRec)} {k : String} {el : FRec}
    (hnd : (m.map Prod.fst).Nodup) (h : m.lookup k = some el) :
    sumIndex (mapDelete m k) = sumIndex m - el.size := by
  induction m with
  | nil => simp [List.lookup] at h
  | cons hd tl ih =>
    obtain ⟨a, b⟩ := hd
    simp only [List.map_cons, List.nodup_cons] at hnd
    by_cases hk : k = a
    · subst hk
      simp [List.lookup] at h
      subst h
      rw [mapDelete_cons, if_pos rfl, mapDelete_of_not_mem hnd.1, sumIndex_cons]
      ring
    · have hb : (k == a) = false := by simp [hk]
      rw [List.lookup, hb] at h
      rw [mapDelete_cons, if_neg (fun ha => hk ha.symm), sumIndex_cons, sumIndex_cons,
        ih hnd.2 h]
      ring

theorem lookup_mapInsert_self {β : Type} (m : List (String × β)) (k : String) (v : β) :
    (mapInsert m k v).lookup k = some v := by
  simp [mapInsert, List.lookup]

theorem lookup_mapInsert_ne {β : Type} (m : List (String × β)) (k k' : String) (v : β)
    (h : k' ≠ k) : (mapInsert m k v).lookup k' = m.lookup k' := by
  have hb : (k' == k) = false := by simp [h]
  rw [mapInsert, List.lookup, hb, lookup_mapDelete_ne _ _ _ h]

/-! ## FileCache invariant preservation -/

theorem mem_of_getLast?_eq_some {l : List FRec} {a : FRec} (h : l.getLast? = some a) :
    a ∈ l := by
  have ha : a ∈ l.getLast? := by rw [h]; rfl
  obtain ⟨hne, rfl⟩ := List.mem_getLast?_eq_getLast ha
  exact List.getLast_mem hne

theorem key_ne_of_mem_of_nodup {l : List FRec} {a b : FRec}
    (hnd : (l.map FRec.key).Nodup) (ha : a ∈ l) (hb : b ∈ l) (hne : a ≠ b) :
    a.key ≠ b.key := by
  intro hkey
  exact hne (List.inj_on_of_nodup_map hnd ha hb hkey)

theorem WF_removeElement {s : CacheSt} {el : FRec} (hwf : WF s)
    (hel : el ∈ s.order) (hl : s.index.lookup el.key = some el) :
    WF (removeElement s el) := by
  obtain ⟨husage, hord, hidx, hlook, hmem⟩ := hwf
  have hordnd : s.order.Nodup := hord.of_map
  refine ⟨?_, ?_, ?_, ?_, ?_⟩
  · -- usage bookkeeping
    show s.usage - el.size = sumIndex (mapDelete s.index el.key)
    rw [sumIndex_mapDelete hidx hl, husage]
  · -- order keys stay nodup
    exact hord.sublist ((List.erase_sublist el s.order).map FRec.key)
  · -- index keys stay nodup
    exact hidx.sublist ((List.filter_sublist s.index).map Prod.fst)
  · -- every remaining element is still indexed
    intro e he
    have hne : e ≠ el := by
      intro h
      exact (hordnd.not_mem_erase (h ▸ he)).elim
    have he' : e ∈ s.order := (List.erase_sublist el s.order).mem he
    have hkey : e.key ≠ el.key := key_ne_of_mem_of_nodup hord he' hel hne
    show (mapDelete s.index el.key).lookup e.key = some e
    rw [lookup_mapDelete_ne _ _ _ hkey]
    exact hlook e he'
  · -- every remaining index entry is still linked
    intro kv hkv
    have hkv' : kv ∈ s.index := List.mem_of_mem_filter hkv
    obtain ⟨hin, hkeq⟩ := hmem kv hkv'
    have hk1 : kv.1 ≠ el.key := by
      have := List.of_mem_filter hkv
      simpa [mapDelete] using this
    have hne : kv.2 ≠ el := by
      intro h
      exact hk1 (hkeq ▸ h ▸ rfl)
    exact ⟨(List.mem_erase_of_ne hne).mpr hin, hkeq⟩

theorem WF_promote {s : CacheSt} {el : FRec} (hwf : WF s) (hel : el ∈ s.order) :
    WF { s with order := moveToFront s.order el } := by
  obtain ⟨husage, hord, hidx, hlook, hmem⟩ := hwf
  have hordnd : s.order.Nodup := hord.of_map
  refine ⟨husage, ?_, hidx, ?_, ?_⟩
  · -- keys of `el :: order.erase el` are nodup
    show ((el :: s.order.erase el).map FRec.key).Nodup
    rw [List.map_cons, List.nodup_cons]
    constructor
    · intro hk
      obtain ⟨e, he, hke⟩ := List.mem_map.mp hk
      have hne : e ≠ el := fun h => hordnd.not_mem_erase (h ▸ he)
      have he' : e ∈ s.order := (List.erase_sublist el s.order).mem he
      exact key_ne_of_mem_of_nodup hord he' hel hne hke
    · exact hord.sublist ((List.erase_sublist el s.order).map FRec.key)
  · intro e he
    rcases List.mem_cons.mp he with rfl | he'
    · exact hlook e hel
    · exact hlook e ((List.erase_sublist el s.order).mem he')
  · intro kv hkv
    obtain ⟨hin, hkeq⟩ := hmem kv hkv
    by_cases hne : kv.2 = el
    · exact ⟨hne ▸ List.mem_cons_self _ _, hkeq⟩
    · exact ⟨List.mem_cons_of_mem _ ((List.mem_erase_of_ne hne).mpr hin), hkeq⟩

theorem WF_Get {s : CacheSt} (key : String) (hwf : WF s) : WF (Get s key).1 := by
  unfold Get
  cases hl : s.index.lookup key with
  | none => exact hwf
  | some el =>
    cases hd : s.disk.lookup key with
    | none => exact hwf
    | some buf =>
      have hel : el ∈ s.order := (hwf.2.2.2.2 (key, el) (lookup_mem hl)).1
      exact WF_promote hwf hel

theorem WF_RemoveOldest {s : CacheSt} (hwf : WF s) : WF (RemoveOldest s) := by
  unfold RemoveOldest
  cases hl : s.order.getLast? with
  | none => exact hwf
  | some el =>
    have hel : el ∈ s.order := mem_of_getLast?_eq_some hl
    exact WF_removeElement hwf hel (hwf.2.2.2.1 el hel)

theorem WF_Remove {s : CacheSt} (key : String) (hwf : WF s) : WF (Remove s key) := by
  unfold Remove
  cases hl : s.index.lookup key with
  | none => exact hwf
  | some el =>
    obtain ⟨hel, hkeq⟩ := hwf.2.2.2.2 (key, el) (lookup_mem hl)
    exact WF_removeElement hwf hel (by rw [hkeq]; exact hl)

theorem MidWF_removeLast {el b : FRec} {t : List FRec} {s : CacheSt}
    (hmid : MidWF el (b :: t) s) :
    ∃ rest', MidWF el rest' (RemoveOldest s)
      ∧ rest'.length = t.length
      ∧ (RemoveOldest s).quota = s.quota := by
  obtain ⟨hordeq, husage, hnd, hidx, hlook, hkv⟩ := hmid
  have hne : (b :: t) ≠ [] := by simp
  set last := (b :: t).getLast hne with hlast_def
  have hlmem : last ∈ b :: t := List.getLast_mem hne
  have hglast : s.order.getLast? = some last := by
    rw [hordeq, List.getLast?_cons_cons, List.getLast?_eq_getLast_of_ne_nil hne]
  have hro : RemoveOldest s = removeElement s last := by
    unfold RemoveOldest
    rw [hglast]
  have hrestnd : ((b :: t).map FRec.key).Nodup := (List.nodup_cons.mp hnd).2
  have helne : el ≠ last := by
    intro h
    exact (List.nodup_cons.mp hnd).1 (List.mem_map_of_mem FRec.key (h ▸ hlmem))
  have herase : s.order.erase last = el :: ((b :: t).erase last) := by
    rw [hordeq]
    exact List.erase_cons_tail (by simpa using helne)
  have hllook : s.index.lookup last.key = some last := hlook last hlmem
  refine ⟨(b :: t).erase last, ?_, ?_, by rw [hro]; rfl⟩
  · rw [hro]
    refine ⟨herase, ?_, ?_, ?_, ?_, ?_⟩
    · -- usage accounting after removing the tail element
      show s.usage - last.size = sumIndex (mapDelete s.index last.key)
      rw [sumIndex_mapDelete hidx hllook, husage]
    · -- nodup keys, as a sublist of the previous key list
      exact hnd.sublist
        ((List.Sublist.cons₂ el (List.erase_sublist last (b :: t))).map FRec.key)
    · exact hidx.sublist ((List.filter_sublist s.index).map Prod.fst)
    · intro e he
      have he' : e ∈ b :: t := (List.erase_sublist last (b :: t)).mem he
      have hene : e ≠ last := by
        intro h
        exact (List.Nodup.of_map FRec.key hrestnd).not_mem_erase (h ▸ he)
      have hkey : e.key ≠ last.key := key_ne_of_mem_of_nodup hrestnd he' hlmem hene
      show (mapDelete s.index last.key).lookup e.key = some e
      rw [lookup_mapDelete_ne _ _ _ hkey]
      exact hlook e he'
    · intro kv hkvmem
      have hkv' : kv ∈ s.index := List.mem_of_mem_filter hkvmem
      obtain ⟨hin, hkeq⟩ := hkv kv hkv'
      have hk1 : kv.1 ≠ last.key := by
        have := List.of_mem_filter hkvmem
        simpa [mapDelete] using this
      have hne2 : kv.2 ≠ last := fun h => hk1 (hkeq ▸ h ▸ rfl)
      exact ⟨(List.mem_erase_of_ne hne2).mpr hin, hkeq⟩
  · exact List.length_erase_of_mem hlmem ▸ rfl

theorem evict_mid (el : FRec) :
    ∀ (fuel : Nat) (s : CacheSt) (rest : List FRec),
      MidWF el rest s → (s.quota ≤ 0 ∨ el.size < s.quota) → rest.length ≤ fuel →
      ∃ rest', MidWF el rest' (evict fuel el.size s)
        ∧ (evict fuel el.size s).quota = s.quota := by
  intro fuel
  induction fuel with
  | zero =>
    intro s rest hmid _ _
    exact ⟨rest, hmid, rfl⟩
  | succ n ih =>
    intro s rest hmid hsz hlen
    by_cases hcond : s.quota > 0 ∧ s.usage + el.size > s.quota
    · rw [evict, if_pos hcond]
      cases rest with
      | nil =>
        exfalso
        obtain ⟨hordeq, husage, hnd, hidx, hlook, hkv⟩ := hmid
        have hidx_nil : s.index = [] := by
          apply List.eq_nil_iff_forall_not_mem.mpr
          intro kv hkvmem
          exact List.not_mem_nil kv.2 (hkv kv hkvmem).1
        rw [hidx_nil] at husage
        simp [sumIndex] at husage
        rcases hsz with hq | hlt
        · omega
        · omega
      | cons b t =>
        obtain ⟨rest', hmid', hlen', hq⟩ := MidWF_removeLast hmid
        have hsz' : (RemoveOldest s).quota ≤ 0 ∨ el.size < (RemoveOldest s).quota := by
          rw [hq]; exact hsz
        have hlen'' : rest'.length ≤ n := by
          simp only [List.length_cons] at hlen
          omega
        obtain ⟨rest'', hmid'', hq'⟩ := ih (RemoveOldest s) rest' hmid' hsz' hlen''
        exact ⟨rest'', hmid'', by rw [hq', hq]⟩
    · rw [evict, if_neg hcond]
      exact ⟨rest, hmid, rfl⟩

theorem WF_Add {s : CacheSt} (key : String) (value : CacheValue) (mkOk wrOk : Bool)
    (hwf : WF s) : WF (Add s key value mkOk wrOk) := by
  obtain ⟨husage, hord, hidx, hlook, hmem⟩ := hwf
  cases value with
  | other => exact ⟨husage, hord, hidx, hlook, hmem⟩
  | bytes data =>
    by_cases hguard : s.quota > 0 ∧ (data.length : Int) ≥ s.quota
    · simp only [Add]
      rw [if_pos hguard]
      exact ⟨husage, hord, hidx, hlook, hmem⟩
    · simp only [Add]
      rw [if_neg hguard]
      cases hl : s.index.lookup key with
      | some el =>
        have hel : el ∈ s.order := (hmem (key, el) (lookup_mem hl)).1
        exact WF_promote ⟨husage, hord, hidx, hlook, hmem⟩ hel
      | none =>
        cases mkOk with
        | false => exact ⟨husage, hord, hidx, hlook, hmem⟩
        | true =>
          rw [if_neg (by decide : ¬ (true = false))]
          -- the fresh element pushed to the front of the list
          have hkeyidx : key ∉ s.index.map Prod.fst := lookup_none_not_mem hl
          have hkeyord : key ∉ s.order.map FRec.key := by
            intro hk
            obtain ⟨e, he, hke⟩ := List.mem_map.mp hk
            exact hkeyidx (hke ▸ List.mem_map_of_mem Prod.fst (lookup_mem (hlook e he)))
          set el : FRec := ⟨(data.length : Int), key⟩ with hel_def
          set s1 : CacheSt := { s with order := el :: s.order } with hs1_def
          have hmid1 : MidWF el s.order s1 :=
            ⟨rfl, husage, List.nodup_cons.mpr ⟨hkeyord, hord⟩, hidx, hlook, hmem⟩
          have hsz1 : s1.quota ≤ 0 ∨ el.size < s1.quota := by
            push_neg at hguard
            by_cases hq : s.quota ≤ 0
            · exact Or.inl hq
            · exact Or.inr (hguard (by omega))
          obtain ⟨rest', hmid2, hq2⟩ :=
            evict_mid el s1.order.length s1 s.order hmid1 hsz1 (by simp)
          set s2 : CacheSt := evict s1.order.length el.size s1 with hs2_def
          obtain ⟨hordeq2, husage2, hnd2, hidx2, hlook2, hkv2⟩ := hmid2
          have hkey2 : key ∉ s2.index.map Prod.fst := by
            intro hk
            obtain ⟨kv, hkvmem, hkv1⟩ := List.mem_map.mp hk
            obtain ⟨hin, hkeq⟩ := hkv2 kv hkvmem
            have : el.key ∈ rest'.map FRec.key := by
              have : kv.2.key = el.key := by rw [hkeq, hkv1]
              exact this ▸ List.mem_map_of_mem FRec.key hin
            exact (List.nodup_cons.mp (by simpa using hnd2)).1 this
          have hins : mapInsert s2.index key el = (key, el) :: s2.index := by
            rw [mapInsert, mapDelete_of_not_mem hkey2]
          cases wrOk with
          | false =>
            rw [if_pos rfl]
            have hoerase : s2.order.erase el = rest' := by
              rw [hordeq2, List.erase_cons_head]
            refine ⟨husage2, ?_, hidx2, ?_, ?_⟩
            · show ((s2.order.erase el).map FRec.key).Nodup
              rw [hoerase]
              exact (List.nodup_cons.mp (by simpa using hnd2)).2
            · intro e he
              rw [hoerase] at he
              exact hlook2 e he
            · intro kv hkvmem
              obtain ⟨hin, hkeq⟩ := hkv2 kv hkvmem
              exact ⟨hoerase ▸ hin, hkeq⟩
          | true =>
            rw [if_neg (by decide : ¬ (true = false))]
            refine ⟨?_, ?_, ?_, ?_, ?_⟩
            · -- usage accounting after a successful write
              show s2.usage + el.size = sumIndex (mapInsert s2.index key el)
              rw [hins, sumIndex_cons, husage2]
              ring
            · show ((s2.order).map FRec.key).Nodup
              rw [hordeq2]
              exact hnd2
            · show ((mapInsert s2.index key el).map Prod.fst).Nodup
              rw [hins, List.map_cons, List.nodup_cons]
              exact ⟨hkey2, hidx2⟩
            · intro e he
              simp only at he
              rw [hordeq2] at he
              rcases List.mem_cons.mp he with rfl | he'
              · show (mapInsert s2.index key el).lookup el.key = some el
                have hthis : el.key = key := rfl
                rw [hthis, lookup_mapInsert_self]
              · have hkne : e.key ≠ key := by
                  intro hk
                  have hkeep : e.key ∈ rest'.map FRec.key := List.mem_map_of_mem FRec.key he'
                  have helk : el.key ∈ rest'.map FRec.key := by
                    have h1 : el.key = e.key := hk.symm
                    rw [h1]; exact hkeep
                  exact (List.nodup_cons.mp (by simpa using hnd2)).1 helk
                show (mapInsert s2.index key el).lookup e.key = some e
                rw [lookup_mapInsert_ne _ _ _ _ hkne]
                exact hlook2 e he'
            · intro kv hkvmem
              rw [hins] at hkvmem
              rcases List.mem_cons.mp hkvmem with rfl | htl
              · exact ⟨by rw [hordeq2]; exact List.mem_cons_self _ _, rfl⟩
              · obtain ⟨hin, hkeq⟩ := hkv2 kv htl
                exact ⟨by rw [hordeq2]; exact List.mem_cons_of_mem _ hin, hkeq⟩

theorem WF_empty (quota : Int) : WF ⟨quota, 0, [], [], []⟩ := by
  refine ⟨rfl, ?_, ?_, ?_, ?_⟩ <;> simp [sumIndex]

/-! ## Parameter-grammar lemmas -/

theorem getFieldValue_cons (p : Params) (k v tagKey tagDefault tagValid tagIndex : String)
    (h : (splitN2Eq tagKey).headD "" ≠ k) :
    getFieldValue ((k, v) :: p) tagKey tagDefault tagValid tagIndex =
      getFieldValue p tagKey tagDefault tagValid tagIndex := by
  have hb : ((splitN2Eq tagKey).headD "" == k) = false := by simpa using h
  simp only [getFieldValue, List.lookup, hb]

theorem parseFields_ok_iff (fields : List String) :
    ∀ acc : Params, (∃ m, parseFields fields acc = .ok m) ↔
      ∀ r ∈ fields, 2 ≤ (splitChar r '=').length := by
  induction fields with
  | nil =>
    intro acc
    simp [parseFields]
  | cons r rest ih =>
    intro acc
    simp only [parseFields]
    by_cases hr : (splitChar r '=').length < 2
    · rw [if_pos hr]
      constructor
      · rintro ⟨m, hm⟩
        cases hm
      · intro h
        exact absurd (h r (List.mem_cons_self r rest)) (by omega)
    · rw [if_neg hr]
      rw [ih]
      constructor
      · intro h r' hr'
        rcases List.mem_cons.mp hr' with rfl | h'
        · omega
        · exact h r' h'
      · intro h r' hr'
        exact h r' (List.mem_cons_of_mem _ hr')

/-! ## Claim theorems -/

/-- C1 (counterexample): the claim says a params map containing a key outside
the declared schema keys makes pipeline construction fail with a validation
error. It is false: `pipeline.New "bogus=1,width=100"` succeeds — the
reflection-driven unpacker walks the schema fields and never inspects the
unknown key `bogus`. -/
theorem C1_unknown_key_accepted_counterexample :
    pipelineNew "bogus=1,width=100" =
      .ok [{ width := 100, height := 0, fitKind := "clip", gravity := "center",
             pointX := 0, pointY := 0 }] := by
  rfl

/-- C1 (amended): unpacking consults only the keys the schema declares
(`width`, `height`, `fit` for the registered `Resize` operation); a binding
for any other key never causes a validation error and leaves the unpack result
entirely unchanged, so pipeline construction can succeed for maps whose key
set is not a subset of the declared keys. -/
theorem C1_unpack_ignores_unknown_keys (m : Params) (k v : String)
    (hw : k ≠ "width") (hh : k ≠ "height") (hf : k ≠ "fit") :
    unpackResize ((k, v) :: m) = unpackResize m := by
  unfold unpackResize
  rw [getFieldValue_cons m k v "width" "" "" ""
      (by rw [show (splitN2Eq "width").headD "" = "width" from rfl]; exact Ne.symm hw),
    getFieldValue_cons m k v "height" "" "" ""
      (by rw [show (splitN2Eq "height").headD "" = "height" from rfl]; exact Ne.symm hh),
    getFieldValue_cons m k v "fit" "clip" "crop" ""
      (by rw [show (splitN2Eq "fit").headD "" = "fit" from rfl]; exact Ne.symm hf),
    getFieldValue_cons m k v "fit=crop" "center" "top|bottom|left|right|point" ""
      (by rw [show (splitN2Eq "fit=crop").headD "" = "fit" from rfl]; exact Ne.symm hf),
    getFieldValue_cons m k v "fit=crop:point" "" "" "0"
      (by rw [show (splitN2Eq "fit=crop:point").headD "" = "fit" from rfl]; exact Ne.symm hf),
    getFieldValue_cons m k v "fit=crop:point" "" "" "1"
      (by rw [show (splitN2Eq "fit=crop:point").headD "" = "fit" from rfl]; exact Ne.symm hf)]

/-- C1 (witness): the amended theorem applied at a concrete unknown key. -/
theorem C1_unpack_ignores_unknown_keys_witness :
    unpackResize (("bogus", "1") :: [("width", "100")]) = unpackResize [("width", "100")] :=
  C1_unpack_ignores_unknown_keys [("width", "100")] "bogus" "1"
    (by decide) (by decide) (by decide)

/-- C2 (counterexample): the claim says gravity `top` crops at
`cx = (W'-w)/2, cy = H'-h`. On a 100×100 image with a 50×50 target,
`cropBounds` returns `cy = 0`, not `cy = 50`. -/
theorem C2_crop_top_counterexample :
    ¬((cropBounds ⟨50, 50, "crop", "top", 0, 0⟩ 100 100).cx = (100 - 50) / 2
      ∧ (cropBounds ⟨50, 50, "crop", "top", 0, 0⟩ 100 100).cy = 100 - 50) := by
  decide

/-- C2 (amended): with `fit=crop` and crop gravity `top`, `Resize.cropBounds`
yields `cx = (W'-w)/2` and `cy = 0` (gravity toward the top edge; the claimed
pair `((W'-w)/2, H'-h)` is what this function returns for gravity `bottom`);
in the legacy
imager engine the `top` (default) switch case yields `cx = (W'-w+1)/2` and
`cy = H'-h`. -/
theorem C2_crop_top_offsets :
    (∀ (r : Resize) (W H : Int), r.gravity = "top" →
        cropBounds r W H =
          { cx := Int.tdiv (W - r.width) 2, cy := 0, cw := r.width, ch := r.height })
    ∧ (∀ (focus : List ℚ) (imgW imgH Wc Hc width height : Int),
        imagerCropOffsets "top" focus imgW imgH Wc Hc width height =
          .ok (Int.tdiv (Wc - width + 1) 2, Hc - height)) := by
  constructor
  · intro r W H hg
    simp [cropBounds, hg]
  · intro focus imgW imgH Wc Hc width height
    simp [imagerCropOffsets]

/-- C2 (witness): the amended theorem applied at concrete inputs. -/
theorem C2_crop_top_offsets_witness :
    cropBounds ⟨50, 50, "crop", "top", 0, 0⟩ 100 100 = ⟨25, 0, 50, 50⟩
      ∧ imagerCropOffsets "top" [] 1000 1000 100 100 50 50 = .ok (25, 50) := by
  refine ⟨?_, ?_⟩
  · rw [C2_crop_top_offsets.1 ⟨50, 50, "crop", "top", 0, 0⟩ 100 100 rfl]
    decide
  · rw [C2_crop_top_offsets.2 [] 1000 1000 100 100 50 50]
    rfl

/-- C3: after every completed `Add`, `Get`, `Remove` or `RemoveOldest` on a
well-formed cache, the usage counter equals the sum of the sizes of the entries
currently in the index (and full well-formedness, whose first component is
exactly that equation, is preserved, so the invariant holds on every cache
reachable from the empty one). -/
theorem C3_usage_invariant (s : CacheSt) (key : String) (value : CacheValue)
    (mkOk wrOk : Bool) (key2 key3 : String) (hwf : WF s) :
    ((Add s key value mkOk wrOk).usage = sumIndex (Add s key value mkOk wrOk).index
        ∧ WF (Add s key value mkOk wrOk))
      ∧ ((Get s key2).1.usage = sumIndex (Get s key2).1.index ∧ WF (Get s key2).1)
      ∧ ((Remove s key3).usage = sumIndex (Remove s key3).index ∧ WF (Remove s key3))
      ∧ ((RemoveOldest s).usage = sumIndex (RemoveOldest s).index
        ∧ WF (RemoveOldest s)) := by
  have hA := WF_Add key value mkOk wrOk hwf
  have hG := WF_Get key2 hwf
  have hR := WF_Remove key3 hwf
  have hO := WF_RemoveOldest hwf
  exact ⟨⟨hA.1, hA⟩, ⟨hG.1, hG⟩, ⟨hR.1, hR⟩, ⟨hO.1, hO⟩⟩

/-- C3 (witness): the invariant theorem applied to a concrete one-entry cache. -/
theorem C3_usage_invariant_witness :
    WF sampleCache
      ∧ (((Add sampleCache "b" (.bytes [9, 9]) true true).usage =
            sumIndex (Add sampleCache "b" (.bytes [9, 9]) true true).index
          ∧ WF (Add sampleCache "b" (.bytes [9, 9]) true true))
        ∧ ((Get sampleCache "a").1.usage = sumIndex (Get sampleCache "a").1.index
          ∧ WF (Get sampleCache "a").1)
        ∧ ((Remove sampleCache "a").usage = sumIndex (Remove sampleCache "a").index
          ∧ WF (Remove sampleCache "a"))
        ∧ ((RemoveOldest sampleCache).usage = sumIndex (RemoveOldest sampleCache).index
          ∧ WF (RemoveOldest sampleCache))) :=
  ⟨by decide,
   C3_usage_invariant sampleCache "b" (.bytes [9, 9]) true true "a" "a" (by decide)⟩

/-- C4: with a positive quota, an `Add` whose byte payload meets or exceeds the
quota leaves the entire cache state — index, recency list, usage and disk —
unchanged (the guard returns before any effect). -/
theorem C4_oversized_add_unchanged (s : CacheSt) (key : String) (data : Bytes)
    (mkOk wrOk : Bool) (hq : s.quota > 0) (hsize : (data.length : Int) ≥ s.quota) :
    Add s key (.bytes data) mkOk wrOk = s := by
  simp only [Add]
  rw [if_pos ⟨hq, hsize⟩]

/-- C4 (witness): the theorem applied to a concrete cache and payload. -/
theorem C4_oversized_add_unchanged_witness :
    Add ⟨2, 0, [], [], []⟩ "k" (.bytes [7, 7, 7]) true true = ⟨2, 0, [], [], []⟩ :=
  C4_oversized_add_unchanged ⟨2, 0, [], [], []⟩ "k" [7, 7, 7] true true
    (by decide) (by decide)

/-- C5 (counterexample): the claim says the pre-existing tree at a fresh root
is deleted iff the requested quota is nonzero. With quota `0` and an existing
tree, `NewFileCache` still calls `os.RemoveAll` first, so the tree is deleted
although the quota is zero. -/
theorem C5_clean_slate_counterexample :
    ¬((NewFileCacheGo [] "root" 0 true).2.2 = true ↔ (0 : Int) ≠ 0) := by
  decide

/-- C5 (amended): in the current revision, creating a cache at a root with no
in-process cache registered removes the pre-existing tree for every quota
value (zero included); the quota-conditional behavior the claim describes is
that of the `part_005` revision, which removes the tree exactly when a
directory exists and the quota is positive. -/
theorem C5_clean_slate (registry : List (String × Int)) (name : String) (quota : Int)
    (dirExists : Bool) (h : registry.lookup name = none) :
    (NewFileCacheGo registry name quota dirExists).2.2 = dirExists
      ∧ (NewFileCachePart005 dirExists quota = true ↔ dirExists = true ∧ 0 < quota) := by
  constructor
  · unfold NewFileCacheGo
    rw [h]
  · simp [NewFileCachePart005]

/-- C5 (witness): the amended theorem applied at a fresh root with zero quota. -/
theorem C5_clean_slate_witness :
    (NewFileCacheGo [] "root" 0 true).2.2 = true
      ∧ (NewFileCachePart005 true 0 = true ↔ true = true ∧ (0 : Int) < 0) :=
  C5_clean_slate [] "root" 0 true rfl

/-- C6 (counterexample): the claim says a `Get` for an unindexed key whose
file exists on disk admits it and returns its bytes. In the current revision
it returns nil: here the disk holds bytes under `k`, the index does not, and
`Get` returns `none` with the state unchanged. -/
theorem C6_warm_start_counterexample :
    (Get ⟨0, 0, [], [], [("k", [1, 2, 3])]⟩ "k").2 = none
      ∧ (⟨0, 0, [], [], [("k", [1, 2, 3])]⟩ : CacheSt).disk.lookup "k" = some [1, 2, 3]
      ∧ (⟨0, 0, [], [], [("k", [1, 2, 3])]⟩ : CacheSt).index.lookup "k" = none := by
  decide

/-- C6 (amended): `Get` on a key absent from the in-memory index returns nil
and leaves the cache unchanged, regardless of what is on disk — the current
revision has no warm-start admission path. -/
theorem C6_get_unindexed_returns_nil (s : CacheSt) (key : String)
    (h : s.index.lookup key = none) :
    Get s key = (s, none) := by
  unfold Get
  rw [h]

/-- C6 (witness): the amended theorem applied at a concrete state with the
file present on disk. -/
theorem C6_get_unindexed_returns_nil_witness :
    Get ⟨0, 0, [], [], [("k", [1, 2, 3])]⟩ "k" = (⟨0, 0, [], [], [("k", [1, 2, 3])]⟩, none) :=
  C6_get_unindexed_returns_nil ⟨0, 0, [], [], [("k", [1, 2, 3])]⟩ "k" rfl

/-- C7: for a resize request with `width > 0` and `height = 0` that is not
short-circuited (the width does not exceed the source width and the source
height is positive), the factor is `W/width` and the height the pipeline uses
from here on is `floor(H / factor)`, computed before the two-stage resample
and any cropping. -/
theorem C7_auto_height (W H width : Int) (fit : String)
    (h1 : 0 < width) (h2 : width ≤ W) (h3 : 0 < H) :
    resizeParams W H width 0 fit =
      some ((W : ℚ) / (width : ℚ), width, ⌊(H : ℚ) / ((W : ℚ) / (width : ℚ))⌋) := by
  unfold resizeParams
  have hsc : resizeShortCircuit width 0 W H = false := by
    simp only [resizeShortCircuit, Bool.or_eq_false_iff, Bool.and_eq_false_iff,
      decide_eq_false_iff_not, not_lt, beq_eq_false_iff_ne, ne_eq]
    refine ⟨⟨h2, by omega⟩, Or.inr (by omega)⟩
  rw [hsc]
  rw [if_neg (by simp)]
  rw [if_neg (by omega : ¬(width > 0 ∧ (0 : Int) > 0))]
  rw [if_pos h1]

/-- C7 (witness): the theorem applied at a 1000×600 source with `width=500`:
factor 2 and auto height 300. -/
theorem C7_auto_height_witness :
    resizeParams 1000 600 500 0 "clip" = some (2, 500, 300) := by
  rw [C7_auto_height 1000 600 500 "clip" (by decide) (by decide) (by decide)]
  norm_num

/-- C9: if the requested width exceeds the source width or the requested
height exceeds the source height — either axis alone — the short-circuit
guard fires and the resize step returns the original image unchanged (no
factor is computed, so nothing is enlarged and the other axis is not
downsized). -/
theorem C9_no_enlarge (W H width height : Int) (fit : String)
    (h : width > W ∨ height > H) :
    resizeShortCircuit width height W H = true
      ∧ resizeParams W H width height fit = none := by
  have hsc : resizeShortCircuit width height W H = true := by
    simp only [resizeShortCircuit, Bool.or_eq_true, Bool.and_eq_true,
      decide_eq_true_eq, beq_iff_eq]
    rcases h with h | h
    · exact Or.inl (Or.inl h)
    · exact Or.inl (Or.inr h)
  refine ⟨hsc, ?_⟩
  unfold resizeParams
  rw [hsc]
  simp

/-- C9 (witness): the theorem applied where only the width exceeds the source
(width 200 > 100, height 0 ≤ 50). -/
theorem C9_no_enlarge_witness :
    resizeShortCircuit 200 0 100 50 = true
      ∧ resizeParams 100 50 200 0 "clip" = none :=
  C9_no_enlarge 100 50 200 0 "clip" (Or.inl (by decide))

set_option maxRecDepth 8192 in
/-- C10 (counterexample): the claim says every input shorter than 2 bytes
panics in `data[:2]` and that a MIME type comes back only for length at least
2. A one-byte `ReadAll`-backed buffer (length 1, capacity 512) does not
panic: the slice bound is checked against the capacity, and the zeroed spare
byte completes `data[:2]`, so `GetFileType` returns the octet-stream
fallback. -/
theorem C10_short_input_counterexample :
    GetFileType (readAllSlice [0x47]) = some "application/octet-stream"
      ∧ (readAllSlice [0x47]).data.length = 1 := by
  constructor
  · rfl
  · rfl

/-- C10 (amended): `GetFileType` evaluates `data[:2]`, whose upper bound is
checked against the slice **capacity**: it panics exactly when
`cap(data) < 2`, and for any slice of capacity at least 2 it returns a MIME
type (octet-stream fallback included). Every `ReadFile`/`ReadAll`-backed
buffer has capacity at least 512, so the cited callers — which do pass
fetched bytes to `GetFileType` with no length check — never trigger the
panic, even for bodies shorter than 2 bytes. -/
theorem C10_slice_capacity (s : GoSlice) (contents : Bytes) :
    (GetFileType s = none ↔ s.data.length + s.spare.length < 2)
      ∧ (GetFileType (readAllSlice contents)).isSome = true
      ∧ fastPathResponse (some contents) = some (GetFileType (readAllSlice contents)) := by
  refine ⟨?_, ?_, rfl⟩
  · unfold GetFileType
    by_cases h : s.data.length + s.spare.length < 2
    · simp [h]
    · simp [h]
  · unfold GetFileType readAllSlice
    rw [if_neg (by simp only [List.length_replicate]; omega)]
    rfl

/-- C10 (witness): the amended theorem applied at a zero-capacity slice (the
only shape that panics) and at an empty `ReadAll` buffer (which does not). -/
theorem C10_slice_capacity_witness :
    GetFileType ⟨[], []⟩ = none ∧ (GetFileType (readAllSlice [])).isSome = true :=
  ⟨(C10_slice_capacity ⟨[], []⟩ []).1.mpr (by decide),
   (C10_slice_capacity ⟨[], []⟩ []).2.1⟩

/-- C8 (counterexample): the claim says a field without exactly one `=` is a
malformed-parameter error and that keys and values are trimmed. `Parse`
accepts `a=b=c` (two `=`) and stores the untrimmed `"k " ↦ " v"` for
`"k = v"`. -/
theorem C8_parse_counterexample :
    Parse "a=b=c" = .ok [("a", "b")] ∧ Parse "k = v" = .ok [("k ", " v")] := by
  constructor <;> rfl

/-- C8 (amended): `Parse` splits on `,` and each field on `=`; it fails with
the malformed-parameter error exactly when some field has no `=` at all
(fewer than two components); fields with surplus `=` are accepted (first
component ↦ second, the rest dropped) and no whitespace is trimmed. -/
theorem C8_parse_ok_iff (s : String) (hne : s ≠ "") :
    (∃ m, Parse s = .ok m) ↔ ∀ r ∈ splitChar s ',', 2 ≤ (splitChar r '=').length := by
  unfold Parse
  rw [if_neg hne]
  exact parseFields_ok_iff (splitChar s ',') []

/-- C8 (witness): the amended theorem applied at `"width=500,fit=crop"`. -/
theorem C8_parse_ok_iff_witness :
    ∃ m, Parse "width=500,fit=crop" = .ok m :=
  (C8_parse_ok_iff "width=500,fit=crop" (by decide)).mpr (by decide)

end Mash
